import Mathlib

/-!
Shallow embedding of the silocoin ledger engine (src/api/src/lib.rs).

External collaborators (secp256k1 ECDSA, SHA-256, base64, the HTTP
transport) are modelled at their interface boundary by the `CryptoModel`
and `PeerEnv` structures below; everything else is a direct translation
of the Rust source.  Machine integers are modelled as `Nat`/`Int` with
explicit two's-complement wrapping where the Rust code casts or can
overflow (`amount as i64`, `i64` accumulation in `get_balance`).
-/

namespace Silocoin

/-- A secp256k1 public key, kept abstract (the library guarantees every
inhabitant of the Rust type is a structurally valid key). -/
structure PublicKey where
  s : String
deriving DecidableEq

/-- A secp256k1 secret key, kept abstract. -/
structure SecretKey where
  s : String
deriving DecidableEq

/-- A parsed ECDSA signature value (the result of a successful
`Signature::from_str`). -/
structure Sig where
  s : String
deriving DecidableEq

/-- Interface model of the cryptographic collaborators used by lib.rs:
`PublicKey::to_string`, `PublicKey::from_secret_key`, SHA-256 over raw
bytes, `sign_ecdsa` composed with `Signature::to_string`,
`Signature::from_str`, `verify_ecdsa`, and base64-of-SHA-256 over a
string (the block hash).  `sha_len` records that SHA-256 digests are
always 32 bytes, which is what makes `Message::from_digest_slice`
succeed in the Rust code. -/
structure CryptoModel where
  pubStr : PublicKey → String
  pubOfSecret : SecretKey → PublicKey
  sha256 : List Nat → List Nat
  sha_len : ∀ bs, (sha256 bs).length = 32
  signStr : SecretKey → List Nat → String
  parseSig : String → Option Sig
  ecdsaVerify : List Nat → Sig → PublicKey → Bool
  hashStr : String → String

/-- The bytes of a string (`str::bytes`); the key strings produced by
`to_string` are ASCII hex, for which this agrees with UTF-8. -/
def strBytes (s : String) : List Nat :=
  s.data.map Char.toNat

/-- `u64::to_be_bytes`: the eight big-endian base-256 digits. -/
def be8 (a : Nat) : List Nat :=
  [a / 2 ^ 56 % 256, a / 2 ^ 48 % 256, a / 2 ^ 40 % 256, a / 2 ^ 32 % 256,
   a / 2 ^ 24 % 256, a / 2 ^ 16 % 256, a / 2 ^ 8 % 256, a % 256]

/-- `message_bytes(to, from_public, amount)` from lib.rs: SHA-256 of
the sender key string, then the recipient key string, then the amount
in big-endian. -/
def messageBytes (m : CryptoModel) (toKey fromPk : PublicKey) (amount : Nat) : List Nat :=
  m.sha256 (strBytes (m.pubStr fromPk) ++ strBytes (m.pubStr toKey) ++ be8 amount)

/-- `Transaction` from lib.rs.  The Rust fields `from` and `to`
are reserved words in Lean and are rendered `fromKey` and `toKey`. -/
structure Transaction where
  fromKey : PublicKey
  toKey : PublicKey
  amount : Nat
  signature : String
deriving DecidableEq

/-- `Transaction::new(to, from, amount)`: derive the sender public key,
hash the message, sign it (the signature is stored in string form).
`Message::from_digest_slice` fails unless the digest is 32 bytes. -/
def transactionNew (m : CryptoModel) (toKey : PublicKey) (fromSk : SecretKey)
    (amount : Nat) : Except String Transaction :=
  let fromPublic := m.pubOfSecret fromSk
  let message := messageBytes m toKey fromPublic amount
  if message.length = 32 then
    Except.ok
      { fromKey := fromPublic
        toKey := toKey
        amount := amount
        signature := m.signStr fromSk message }
  else
    Except.error "bad digest length"

/-- `Transaction::verify`: recompute the digest from the transaction
fields, parse the stored signature string (a parse failure is an
error, not `Ok(false)`), then check the signature against the
transaction's own `from` key, returning the boolean outcome. -/
def transactionVerify (m : CryptoModel) (t : Transaction) : Except String Bool :=
  let message := messageBytes m t.toKey t.fromKey t.amount
  match m.parseSig t.signature with
  | none => Except.error "malformed signature"
  | some sg =>
    if message.length = 32 then
      Except.ok (m.ecdsaVerify message sg t.fromKey)
    else
      Except.error "bad digest length"

/-- Two's-complement reinterpretation of a u64 bit pattern as an i64:
the semantics of Rust `amount as i64`. -/
def i64cast (a : Nat) : Int :=
  let r : Nat := a % 2 ^ 64
  if r < 2 ^ 63 then (r : Int) else (r : Int) - 2 ^ 64

/-- Wrap an integer into the i64 range: the semantics of Rust i64
addition/subtraction (release profile, wrapping on overflow). -/
def wrap64 (z : Int) : Int :=
  (z + 2 ^ 63) % 2 ^ 64 - 2 ^ 63

/-- `Block` from lib.rs. -/
structure Block where
  time : Nat
  transaction : Transaction
  prev_block_hash : String
  nonce : Nat
  hash : String
deriving DecidableEq

/-- The string `"0".repeat(difficulty)`. -/
def zeros (d : Nat) : String :=
  String.mk (List.replicate d '0')

/-- `str::starts_with`: the first string starts with `difficulty`
zero characters. -/
def hasPfx (difficulty : Nat) (s : String) : Bool :=
  (zeros difficulty).data.isPrefixOf s.data

/-- `Block::verify_hash`: the stored hash string starts with
`difficulty` literal zero characters.  Note that the stored hash is
not recomputed from the block's fields. -/
def verifyHash (b : Block) (difficulty : Nat) : Bool :=
  hasPfx difficulty b.hash

/-- `{:?}` rendering of a `Vec<u8>`, used inside `calculate_hash`. -/
def debugFmtList (l : List Nat) : String :=
  "[" ++ String.intercalate ", " (l.map (fun n => toString n)) ++ "]"

/-- `Block::calculate_hash`: base64 of the SHA-256 of the formatted
header string `"{time}{message_bytes:?}{prev_block_hash}{nonce}"`.
The stored `hash` field is not an input. -/
def calculateHash (m : CryptoModel) (b : Block) : String :=
  m.hashStr
    (toString b.time ++
      debugFmtList (messageBytes m b.transaction.toKey b.transaction.fromKey
        b.transaction.amount) ++
      b.prev_block_hash ++ toString b.nonce)

/-- `Block::mine`: while the current hash fails the difficulty check,
increment the nonce and recompute the hash (in that order, so the hash
stored for the initial nonce is never computed).  The Rust loop is
unbounded; `fuel` bounds the number of iterations modelled, with
`none` standing for a run that has not terminated within `fuel`
steps. -/
def mineAux (m : CryptoModel) (difficulty : Nat) : Nat → Block → Option Block
  | 0, b => if verifyHash b difficulty then some b else none
  | fuel + 1, b =>
    if verifyHash b difficulty then some b
    else
      let b2 : Block := { b with nonce := b.nonce + 1 }
      mineAux m difficulty fuel { b2 with hash := calculateHash m b2 }

/-- `Block::new(transaction, prev_block_hash)`: start unsealed
(`nonce = 0`, `hash = ""`, `time = now()` passed explicitly) and mine
with the fixed difficulty 2. -/
def blockNew (m : CryptoModel) (fuel time : Nat) (tx : Transaction)
    (prev : String) : Option Block :=
  mineAux m 2 fuel
    { time := time, transaction := tx, prev_block_hash := prev
      nonce := 0, hash := "" }

/-- `Block::verify(difficulty)`: the transaction signature re-verifies
(an error propagates) and the stored hash passes the difficulty
check. -/
def blockVerify (m : CryptoModel) (b : Block) (difficulty : Nat) :
    Except String Bool :=
  match transactionVerify m b.transaction with
  | Except.error e => Except.error e
  | Except.ok v => Except.ok (v && verifyHash b difficulty)

/-- `Blockchain` from lib.rs. -/
structure Blockchain where
  chain : List Block
deriving DecidableEq

/-- `Blockchain::add_block`: take the last block's hash (or `"0"` for
the first block), mine a new block for the transaction, push it.  A
mining run that does not finish within `fuel` propagates as `none`
and nothing is pushed. -/
def addBlock (m : CryptoModel) (fuel time : Nat) (bc : Blockchain)
    (tx : Transaction) : Option Blockchain :=
  let prevHash :=
    match bc.chain.getLast? with
    | some b => b.hash
    | none => "0"
  match blockNew m fuel time tx prevHash with
  | some nb => some { chain := bc.chain ++ [nb] }
  | none => none

/-- A network address (`SocketAddr`), abstracted to a string. -/
abbrev Addr := String

/-- `Ledger` from lib.rs.  The Rust `HashSet<SocketAddr>` peer set is
modelled as a duplicate-free list whose order stands for the set's
iteration order. -/
structure Ledger where
  chain : Blockchain
  addr : Addr
  pending_transactions : List Transaction
  peers : List Addr
deriving DecidableEq

/-- `Ledger::new(initial_peers, addr)`. -/
def ledgerNew (initialPeers : List Addr) (addr : Addr) : Ledger :=
  { chain := { chain := [] }
    addr := addr
    pending_transactions := []
    peers := initialPeers }

/-- One iteration of the `get_balance` loop, translated clause for
clause from the Rust if/else-if chain; i64 arithmetic wraps. -/
def balStep (k : PublicKey) (bal : Int) (t : Transaction) : Int :=
  if k ≠ t.fromKey ∧ k ≠ t.toKey then bal
  else if k = t.fromKey ∧ k = t.toKey then bal
  else if k = t.toKey then wrap64 (bal + i64cast t.amount)
  else if k = t.fromKey then wrap64 (bal - i64cast t.amount)
  else bal

/-- `Ledger::get_balance`: start from the implicit genesis credit of
100 and scan every transaction in chain order.  (The Rust function
wraps the result in `Ok`; it never errors.) -/
def getBalance (k : PublicKey) (bc : Blockchain) : Int :=
  bc.chain.foldl (fun bal blk => balStep k bal blk.transaction) 100

/-- The failure modes of `Ledger::send` (all `anyhow::Error` in Rust);
`miningFailed` stands for a mining loop that has not terminated within
the modelled fuel. -/
inductive SendError where
  | insufficientFunds
  | txFailed
  | miningFailed
deriving DecidableEq

/-- `Ledger::send(to, from, amount)`: derive the sender key, check
`amount as i64 > balance` (note the wrapping cast), then sign, mine
and append.  The best-effort broadcast to peers touches no local
state and is omitted. -/
def send (m : CryptoModel) (fuel time : Nat) (st : Ledger)
    (toKey : PublicKey) (fromSk : SecretKey) (amount : Nat) :
    Except SendError Ledger :=
  let fromPublic := m.pubOfSecret fromSk
  let fromBalance := getBalance fromPublic st.chain
  if i64cast amount > fromBalance then Except.error SendError.insufficientFunds
  else
    match transactionNew m toKey fromSk amount with
    | Except.error _ => Except.error SendError.txFailed
    | Except.ok tx =>
      match addBlock m fuel time st.chain tx with
      | none => Except.error SendError.miningFailed
      | some bc => Except.ok { st with chain := bc }

/-- `Ledger::update_blockchain`: unconditionally replace the local
chain (the Rust function only prints and assigns). -/
def updateBlockchain (st : Ledger) (bc : Blockchain) : Ledger :=
  { st with chain := bc }

/-- One reconciliation cycle's view of the network, at the transport
interface: for each peer, whether the self-announce POST succeeds
(its result is logged and otherwise ignored by the code), the
peer-list GET (`none` covers unreachable, timeout and unparseable),
and the chain GET (likewise). -/
structure PeerEnv where
  announceOk : Addr → Bool
  peersResp : Addr → Option (List Addr)
  chainResp : Addr → Option Blockchain

/-- `HashSet::insert` on the list model of the peer set. -/
def insertAddr (ps : List Addr) (a : Addr) : List Addr :=
  if a ∈ ps then ps else ps ++ [a]

/-- `HashMap::get(...).unwrap_or(&0)` on the association-list model of
`usage_map`. -/
def getCount : List (Blockchain × Nat) → Blockchain → Nat
  | [], _ => 0
  | (c, n) :: rest, c2 => if c2 = c then n else getCount rest c2

/-- Tally one fetched chain: `usage_map.insert(blockchain, count + 1)`
on the association-list model (bump in place, or append a fresh entry
with count 1). -/
def bump : List (Blockchain × Nat) → Blockchain → List (Blockchain × Nat)
  | [], c => [(c, 1)]
  | (c, n) :: rest, c2 =>
    if c2 = c then (c, n + 1) :: rest else (c, n) :: bump rest c2

/-- One step of the fold in `Ledger::sync` that scans `usage_map`:
keep the entry with the strictly larger count. -/
def pickStep (acc : Option Blockchain × Nat) (e : Blockchain × Nat) :
    Option Blockchain × Nat :=
  if e.2 > acc.2 then (some e.1, e.2) else acc

/-- The fold in `Ledger::sync` that scans `usage_map` keeping the
first entry with a strictly larger count. -/
def pickMost (entries : List (Blockchain × Nat)) : Option Blockchain × Nat :=
  entries.foldl pickStep (none, 0)

/-- The per-peer loop of `Ledger::sync` over the snapshot of the peer
set: skip self; announce (result ignored); on peer-list success merge
the peers; then on chain success tally the chain.  Any fetch failure
skips the remaining steps for that peer and never removes it. -/
def syncLoop (env : PeerEnv) (selfAddr : Addr) :
    List Addr → List Addr → List (Blockchain × Nat) →
    List Addr × List (Blockchain × Nat)
  | [], ps, mp => (ps, mp)
  | p :: rest, ps, mp =>
    if p = selfAddr then syncLoop env selfAddr rest ps mp
    else
      match env.peersResp p with
      | none => syncLoop env selfAddr rest ps mp
      | some resPeers =>
        let ps2 := resPeers.foldl insertAddr ps
        match env.chainResp p with
        | none => syncLoop env selfAddr rest ps2 mp
        | some bc => syncLoop env selfAddr rest ps2 (bump mp bc)

/-- The peer set after the `sync` loop (extended, never shrunk). -/
def syncPeers (env : PeerEnv) (st : Ledger) : List Addr :=
  (syncLoop env st.addr st.peers st.peers []).1

/-- The finished `usage_map` of a `sync` run: every successfully
fetched chain tallied, plus the single self-vote for the local
chain. -/
def syncUsage (env : PeerEnv) (st : Ledger) : List (Blockchain × Nat) :=
  bump (syncLoop env st.addr st.peers st.peers []).2 st.chain

/-- `Ledger::sync`: run the per-peer loop, add the self-vote, and
adopt the first chain with the strictly highest tally (no adoption
only in the unreachable case of an empty map). -/
def sync (env : PeerEnv) (st : Ledger) : Ledger :=
  match (pickMost (syncUsage env st)).1 with
  | some best => { st with peers := syncPeers env st, chain := best }
  | none => { st with peers := syncPeers env st }

/-- The vote count a chain receives in one `sync` run, stated
independently of the map: one vote per snapshot peer (other than
self) whose peer-list fetch succeeded and whose chain fetch returned
exactly this chain, plus one self-vote for the local chain.  The
announce outcome plays no role. -/
def votes (env : PeerEnv) (st : Ledger) (c : Blockchain) : Nat :=
  st.peers.countP
    (fun p =>
      decide (p ≠ st.addr) && (env.peersResp p).isSome &&
        decide (env.chainResp p = some c)) +
    (if c = st.chain then 1 else 0)

/-- Default block used by positional lookups (`List.getD`). -/
def defaultBlock : Block :=
  { time := 0
    transaction :=
      { fromKey := { s := "" }, toKey := { s := "" }, amount := 0, signature := "" }
    prev_block_hash := "", nonce := 0, hash := "" }

/-- Chain linkage, as the spec states it: the first block's
`prev_block_hash` is `"0"` and every later block's equals its
predecessor's `hash`. -/
def WellLinked (l : List Block) : Prop :=
  ∀ i, i < l.length →
    (l.getD i defaultBlock).prev_block_hash =
      (if i = 0 then "0" else (l.getD (i - 1) defaultBlock).hash)

/-- Spec-side balance contribution of one transaction (from section
4.4 of the spec, for the refinement half of the balance claim):
`+amount` to the recipient, `-amount` to the sender, zero for a
bystander or a self-transfer, with exact integer arithmetic. -/
def contribSpec (k : PublicKey) (t : Transaction) : Int :=
  if t.toKey = k ∧ t.fromKey ≠ k then (t.amount : Int)
  else if t.fromKey = k ∧ t.toKey ≠ k then -(t.amount : Int)
  else 0

/-- Spec-side balance (section 4.4): genesis credit of 100 plus the
exact contributions of all transactions in order. -/
def balanceSpec (k : PublicKey) (ts : List Transaction) : Int :=
  100 + (ts.map (contribSpec k)).sum

/-- A run of `add_block` calls starting from a given chain; each entry
carries the transaction, the wall-clock time of the call and the
mining fuel.  A call whose mining does not finish leaves the chain
unchanged (the Rust error propagates before the push). -/
def runOps (m : CryptoModel) (bc : Blockchain) :
    List (Transaction × Nat × Nat) → Blockchain
  | [] => bc
  | (tx, time, fuel) :: rest => runOps m ((addBlock m fuel time bc tx).getD bc) rest

/-- A concrete 32-byte "digest" function for instantiating the crypto
model in witnesses: clamp each byte and pad/truncate to 32 entries. -/
def toySha (bs : List Nat) : List Nat :=
  ((bs.map (fun x => x % 256)) ++ List.replicate 32 0).take 32

/-- A concrete deterministic "signature string" for witnesses: the
signer's public key string and the digest, concatenated. -/
def toySigEnc (pk : PublicKey) (d : List Nat) : String :=
  pk.s ++ "/" ++ toString d

/-- A concrete crypto model for witnesses, parameterised by the block
hash function.  Signatures verify exactly when the stored string is
the canonical encoding for the claimed key and digest; the empty
string is the one unparseable signature. -/
def mkToy (h : String → String) : CryptoModel :=
  { pubStr := fun pk => pk.s
    pubOfSecret := fun sk => { s := sk.s }
    sha256 := toySha
    sha_len := fun bs => by
      simp [toySha, List.length_take, List.length_append, List.length_map]
    signStr := fun sk d => toySigEnc { s := sk.s } d
    parseSig := fun s => if s = "" then none else some { s := s }
    ecdsaVerify := fun d sg pk => sg.s == toySigEnc pk d
    hashStr := h }

/-- Witness model whose block hash is always `"00"`: mining finishes
after one step. -/
def toyModel : CryptoModel := mkToy (fun _ => "00")

/-- Witness model whose block hash is always `"zz"`: no block hash
ever meets a positive difficulty. -/
def toyModelBad : CryptoModel := mkToy (fun _ => "zz")

/-- A throwaway transaction used by mining and chain witnesses (its
signature is never checked on those paths). -/
def tx0 : Transaction :=
  { fromKey := { s := "x" }, toKey := { s := "y" }, amount := 1, signature := "s" }

/-- The block `Block::new` produces from `tx0` at time 0 under
`toyModel`: the empty initial hash fails difficulty 2, so one mining
step runs and seals at nonce 1. -/
def bMined : Block :=
  { time := 0, transaction := tx0, prev_block_hash := "0", nonce := 1, hash := "00" }

/-- A transaction with a cryptographically valid signature under
`toyModelBad` (used by the block-verify counterexample). -/
def txOK : Transaction :=
  { fromKey := { s := "f" }, toKey := { s := "g" }, amount := 1
    signature :=
      toySigEnc { s := "f" } (messageBytes toyModelBad { s := "g" } { s := "f" } 1) }

/-- A block whose stored hash has the difficulty-2 prefix but is not
the hash of its own fields under `toyModelBad`. -/
def bStale : Block :=
  { time := 3, transaction := txOK, prev_block_hash := "p", nonce := 5
    hash := "00stale" }

/-- Scenario block A (spec section 8, reconciliation scenario). -/
def blkA : Block :=
  { time := 0, transaction := tx0, prev_block_hash := "0", nonce := 0, hash := "" }

/-- Scenario block B, distinct from `blkA`. -/
def blkB : Block :=
  { time := 1, transaction := tx0, prev_block_hash := "", nonce := 0, hash := "" }

/-- Scenario ledger: local chain of length 2 whose length-1 suffix
chain `[blkA]` is what both peers hold. -/
def stScenario : Ledger :=
  { chain := { chain := [blkA, blkB] }, addr := "A"
    pending_transactions := [], peers := ["B", "C"] }

/-- Scenario environment: peers B and C both answer with the shorter
chain `[blkA]`. -/
def envScenario : PeerEnv :=
  { announceOk := fun _ => true
    peersResp := fun _ => some []
    chainResp := fun _ => some { chain := [blkA] } }

/-- Environment for the announce-failure counterexample: the announce
POST to peer B fails, but B's peer-list and chain fetches succeed. -/
def envAnnounceFail : PeerEnv :=
  { announceOk := fun _ => false
    peersResp := fun _ => some []
    chainResp := fun _ => some { chain := [blkA] } }

/-- Ledger for the announce-failure counterexample: one peer B, own
chain `[blkB]` distinct from B's chain `[blkA]`. -/
def stAnnounceFail : Ledger :=
  { chain := { chain := [blkB] }, addr := "A"
    pending_transactions := [], peers := ["B"] }

/-- Transaction moving `2^63` units (one more than `i64::MAX`) from
key O to key K: the `as i64` cast wraps it to a negative value. -/
def txBig : Transaction :=
  { fromKey := { s := "O" }, toKey := { s := "K" }, amount := 2 ^ 63
    signature := "s" }

/-- A chain holding just the `2^63`-unit transfer. -/
def bcBig : Blockchain :=
  { chain := [{ time := 0, transaction := txBig, prev_block_hash := "0"
                nonce := 0, hash := "" }] }

/-- Fresh single-node ledger for the overflow-send demonstration
(empty chain, so every key's balance is the genesis 100). -/
def ledgerFresh : Ledger := ledgerNew [] "A"

/-- Signed 64-bit range membership. -/
def inI64 (z : Int) : Prop :=
  -(2 ^ 63) ≤ z ∧ z < 2 ^ 63

instance (z : Int) : Decidable (inI64 z) :=
  inferInstanceAs (Decidable (_ ∧ _))

/-- Two `add_block` calls used by the chain-linkage witness. -/
def opsW : List (Transaction × Nat × Nat) :=
  [(tx0, 0, 3), (tx0, 1, 3)]

/-- Key whose balance the balance witness computes. -/
def kW : PublicKey := { s := "K" }

/-- Small two-transfer chain for the balance witness: K receives 5,
then sends 3. -/
def bcW : Blockchain :=
  { chain :=
      [{ time := 0
         transaction :=
           { fromKey := { s := "O" }, toKey := { s := "K" }, amount := 5
             signature := "s" }
         prev_block_hash := "0", nonce := 0, hash := "" },
       { time := 1
         transaction :=
           { fromKey := { s := "K" }, toKey := { s := "O" }, amount := 3
             signature := "s" }
         prev_block_hash := "", nonce := 0, hash := "" }] }

/-- A self-transfer transaction (sender equals recipient). -/
def txSelf : Transaction :=
  { fromKey := { s := "K" }, toKey := { s := "K" }, amount := 7, signature := "s" }

/-- A block carrying the self-transfer. -/
def blkSelf : Block :=
  { time := 2, transaction := txSelf, prev_block_hash := "", nonce := 0, hash := "" }

/-- The transaction `Transaction::new` produces under `toyModel` for
secret key k, recipient B, amount 0 (the sign/verify witness). -/
def tW : Transaction :=
  { fromKey := { s := "k" }, toKey := { s := "B" }, amount := 0
    signature :=
      toySigEnc { s := "k" } (messageBytes toyModel { s := "B" } { s := "k" } 0) }

/-- A transaction whose signature string is unparseable (the empty
string under the toy parser). -/
def tBadSig : Transaction :=
  { fromKey := { s := "f" }, toKey := { s := "g" }, amount := 1, signature := "" }

theorem i64cast_of_lt {a : Nat} (h : a < 2 ^ 63) : i64cast a = (a : Int) := by
  have h64 : a % 2 ^ 64 = a := Nat.mod_eq_of_lt (by omega)
  simp only [i64cast, h64]
  rw [if_pos h]

theorem wrap64_of_inI64 {z : Int} (h : inI64 z) : wrap64 z = z := by
  obtain ⟨h1, h2⟩ := h
  have hmod : (z + 2 ^ 63) % 2 ^ 64 = z + 2 ^ 63 :=
    Int.emod_eq_of_lt (by omega) (by omega)
  simp only [wrap64, hmod]
  omega

theorem balStep_self {k : PublicKey} {bal : Int} {t : Transaction}
    (h : t.fromKey = t.toKey) : balStep k bal t = bal := by
  by_cases hk : k = t.fromKey
  · rw [balStep, if_neg (by simp [hk]), if_pos ⟨hk, h ▸ hk⟩]
  · rw [balStep, if_pos ⟨hk, fun hk2 => hk (h ▸ hk2)⟩]

theorem balStep_eq_spec {k : PublicKey} {bal : Int} {t : Transaction}
    (hAmt : t.amount < 2 ^ 63) (hin : inI64 (bal + contribSpec k t)) :
    balStep k bal t = bal + contribSpec k t := by
  have hc := i64cast_of_lt hAmt
  by_cases hf : k = t.fromKey <;> by_cases ht : k = t.toKey
  · rw [balStep, if_neg (fun h => h.1 hf), if_pos ⟨hf, ht⟩, contribSpec,
      if_neg (fun h => h.2 hf.symm), if_neg (fun h => h.2 ht.symm)]
    omega
  · rw [contribSpec, if_neg (fun h => h.2 hf.symm),
      if_pos ⟨hf.symm, fun h2 => ht h2.symm⟩] at hin ⊢
    rw [balStep, if_neg (fun h => h.1 hf), if_neg (fun h => ht h.2),
      if_neg ht, if_pos hf, hc, sub_eq_add_neg]
    exact wrap64_of_inI64 hin
  · rw [contribSpec, if_pos ⟨ht.symm, fun h2 => hf h2.symm⟩] at hin ⊢
    rw [balStep, if_neg (fun h => h.2 ht), if_neg (fun h => hf h.1),
      if_pos ht, hc]
    exact wrap64_of_inI64 hin
  · rw [balStep, if_pos ⟨hf, ht⟩, contribSpec,
      if_neg (fun h => ht h.1.symm), if_neg (fun h => hf h.1.symm)]
    omega

theorem foldl_balStep_spec (k : PublicKey) :
    ∀ (ts : List Transaction) (bal : Int),
      (∀ t ∈ ts, t.amount < 2 ^ 63) →
      (∀ n, n ≤ ts.length →
        inI64 (bal + ((ts.take n).map (contribSpec k)).sum)) →
      ts.foldl (balStep k) bal = bal + (ts.map (contribSpec k)).sum
  | [], bal, _, _ => by simp
  | t :: ts, bal, hAmt, hin => by
    have h1 : balStep k bal t = bal + contribSpec k t := by
      refine balStep_eq_spec (hAmt t (by simp)) ?_
      have := hin 1 (by simp)
      simpa using this
    have h2 := foldl_balStep_spec k ts (bal + contribSpec k t)
      (fun t2 ht2 => hAmt t2 (by simp [ht2]))
      (fun n hn => by
        have := hin (n + 1) (by simpa using hn)
        simpa [List.take_succ_cons, add_assoc] using this)
    simp only [List.foldl_cons, h1, h2, List.map_cons, List.sum_cons]
    omega

/-- C4: the claim that `get_balance` adds the literal `amount` fails
for amounts above `i64::MAX`.  With `amount = 2^63` paid **to** key K,
the `as i64` cast makes the code subtract `2^63` instead of adding it:
the balance is `100 - 2^63`, not the claimed `100 + 2^63`. -/
theorem c4_balance_counterexample :
    getBalance { s := "K" } bcBig = 100 - 2 ^ 63 ∧
      txBig.toKey = { s := "K" } ∧ txBig.fromKey ≠ { s := "K" } ∧
      (100 - 2 ^ 63 : Int) ≠ 100 + (txBig.amount : Int) := by
  refine ⟨by decide, by decide, by decide, by decide⟩

/-- C4 (amended): `get_balance` starts from the genesis credit 100 and
scans the chain in order, skipping bystander transactions and
self-transfers; for every chain whose amounts all fit in `i64` and
whose running balances stay in the i64 range, the result is exactly
100 plus amount for transfers to the key minus amount for transfers
from it (amounts above `i64::MAX` instead enter via the wrapping
`as i64` cast); appending a self-transfer never changes the
balance. -/
theorem c4_balance_amended (k : PublicKey) (bc : Blockchain) :
    ((∀ b ∈ bc.chain, b.transaction.amount < 2 ^ 63) →
      (∀ n, n ≤ bc.chain.length →
        inI64 (balanceSpec k ((bc.chain.take n).map Block.transaction))) →
      getBalance k bc = balanceSpec k (bc.chain.map Block.transaction)) ∧
    (∀ blk : Block, blk.transaction.fromKey = blk.transaction.toKey →
      getBalance k { chain := bc.chain ++ [blk] } = getBalance k bc) := by
  constructor
  · intro hAmt hin
    rw [getBalance, balanceSpec, ← List.foldl_map]
    rw [foldl_balStep_spec k (bc.chain.map Block.transaction) 100
      (fun t ht => by
        obtain ⟨b, hb, rfl⟩ := List.mem_map.mp ht
        exact hAmt b hb)
      (fun n hn => by
        have := hin n (by simpa using hn)
        rw [balanceSpec] at this
        simpa [List.map_take] using this)]
  · intro blk hself
    rw [getBalance, getBalance, List.foldl_append]
    simp [balStep_self hself]

/-- C4 witness: on a concrete two-transfer chain with small amounts
the amended statement computes `100 + 5 - 3`, and appending a concrete
self-transfer leaves the result unchanged. -/
theorem c4_balance_witness :
    getBalance kW bcW = balanceSpec kW (bcW.chain.map Block.transaction) ∧
      getBalance kW { chain := bcW.chain ++ [blkSelf] } = getBalance kW bcW :=
  ⟨(c4_balance_amended kW bcW).1
      (by decide)
      (by decide),
    (c4_balance_amended kW bcW).2 blkSelf (by decide)⟩

theorem messageBytes_length (m : CryptoModel) (toKey fromPk : PublicKey)
    (amount : Nat) : (messageBytes m toKey fromPk amount).length = 32 :=
  m.sha_len _

/-- C7: `Transaction::verify` errors (rather than returning a boolean)
exactly when the signature string does not parse, and otherwise
returns `Ok` of the ECDSA check of the recomputed digest against the
transaction's own `from` key — so a well-formed but cryptographically
invalid signature yields `Ok(false)`, and the key checked is always
the transaction's own `from` field.  (An undecodable `from` key cannot
reach `verify` at all: the Rust `PublicKey` type admits only decoded
keys, so such input fails earlier, at deserialisation.) -/
theorem c7_transaction_verify_semantics (m : CryptoModel) (t : Transaction) :
    (m.parseSig t.signature = none →
      transactionVerify m t = Except.error "malformed signature") ∧
    (∀ sg, m.parseSig t.signature = some sg →
      transactionVerify m t =
        Except.ok (m.ecdsaVerify (messageBytes m t.toKey t.fromKey t.amount)
          sg t.fromKey)) := by
  constructor
  · intro h
    simp [transactionVerify, h]
  · intro sg h
    simp [transactionVerify, h, messageBytes_length]

/-- C7 witness: under the toy model, the unparseable empty signature
string errors, and a parseable valid signature verifies to
`Ok(true)`. -/
theorem c7_transaction_verify_witness :
    transactionVerify toyModel tBadSig = Except.error "malformed signature" ∧
      transactionVerify toyModelBad txOK = Except.ok true := by
  constructor
  · exact (c7_transaction_verify_semantics toyModel tBadSig).1 rfl
  · have h := (c7_transaction_verify_semantics toyModelBad txOK).2
      { s := txOK.signature } rfl
    rw [h]
    rfl

/-- C6 counterexample: `Block::verify` does not re-derive the hash
from the block's fields.  `bStale` has a cryptographically valid
transaction and a stored hash with the difficulty-2 zero prefix, yet
the hash computed from its time, transaction digest, prev hash and
nonce has no zero prefix and differs from the stored hash — and
`verify` still returns `Ok(true)`. -/
theorem c6_block_verify_counterexample :
    blockVerify toyModelBad bStale 2 = Except.ok true ∧
      hasPfx 2 (calculateHash toyModelBad bStale) = false ∧
      bStale.hash ≠ calculateHash toyModelBad bStale :=
  ⟨by rfl, by decide, by decide⟩

/-- C6 (amended): `Block::verify(d)` returns `Ok(true)` iff the
embedded transaction's signature re-verifies and the **stored** hash
string starts with `d` zero characters; the hash is not recomputed
from the block's fields. -/
theorem c6_block_verify_amended (m : CryptoModel) (b : Block) (d : Nat) :
    blockVerify m b d = Except.ok true ↔
      (transactionVerify m b.transaction = Except.ok true ∧
        verifyHash b d = true) := by
  cases h : transactionVerify m b.transaction with
  | error e => simp [blockVerify, h]
  | ok v => simp [blockVerify, h, Bool.and_eq_true]

/-- C6 witness: the amended equivalence applied to a concrete block
that passes both checks. -/
theorem c6_block_verify_witness :
    blockVerify toyModelBad bStale 2 = Except.ok true :=
  (c6_block_verify_amended toyModelBad bStale 2).mpr ⟨by rfl, by rfl⟩

/-- C1: the insufficient-funds gate in `Ledger::send` compares
`amount as i64 > balance`; for `amount = 2^63` (one past `i64::MAX`)
the cast wraps to `-2^63`, so the gate does not fire even though the
amount vastly exceeds the sender's balance of 100: `send` never
returns insufficient-funds for this amount and (under the toy model)
appends a block, growing the chain — contradicting the claimed
failure with an unchanged chain. -/
theorem c1_insufficient_funds_code_bug :
    (∀ pk : PublicKey, getBalance pk ledgerFresh.chain = 100) ∧
      ((2 ^ 63 : Int) > 100) ∧
      (∀ (m : CryptoModel) (fuel time : Nat),
        send m fuel time ledgerFresh { s := "b" } { s := "a" } (2 ^ 63) ≠
          Except.error SendError.insufficientFunds) ∧
      (∃ st2, send toyModel 3 0 ledgerFresh { s := "b" } { s := "a" } (2 ^ 63) =
          Except.ok st2 ∧ st2.chain.chain.length = 1) := by
  refine ⟨fun pk => rfl, by norm_num, ?_, ?_⟩
  · intro m fuel time h
    have hcond : ¬ (i64cast (2 ^ 63) >
        getBalance (m.pubOfSecret { s := "a" }) ledgerFresh.chain) := by
      have h2 : i64cast (2 ^ 63) = -(2 ^ 63) := by decide
      have h1 : getBalance (m.pubOfSecret { s := "a" }) ledgerFresh.chain = 100 :=
        rfl
      rw [h1, h2]
      decide
    rw [send] at h
    rw [if_neg hcond] at h
    split at h
    · simp at h
    · split at h
      · simp at h
      · simp at h
  · exact ⟨_, rfl, rfl⟩

theorem calculateHash_ext (m : CryptoModel) {b c : Block} (h1 : b.time = c.time)
    (h2 : b.transaction = c.transaction) (h3 : b.prev_block_hash = c.prev_block_hash)
    (h4 : b.nonce = c.nonce) : calculateHash m b = calculateHash m c := by
  rw [calculateHash, calculateHash, h1, h2, h3, h4]

theorem mineAux_sound (m : CryptoModel) (d : Nat) :
    ∀ (fuel : Nat) (b b2 : Block), mineAux m d fuel b = some b2 →
      verifyHash b2 d = true ∧
      b2.time = b.time ∧ b2.transaction = b.transaction ∧
      b2.prev_block_hash = b.prev_block_hash ∧
      b.nonce ≤ b2.nonce ∧
      (b2.nonce = b.nonce → b2 = b) ∧
      (b.nonce < b2.nonce →
        verifyHash b d = false ∧
        b2.hash = calculateHash m { b with nonce := b2.nonce } ∧
        ∀ k, b.nonce < k → k < b2.nonce →
          hasPfx d (calculateHash m { b with nonce := k }) = false) := by
  intro fuel
  induction fuel with
  | zero =>
    intro b b2 h
    rw [mineAux] at h
    cases hv : verifyHash b d with
    | false => rw [hv] at h; simp at h
    | true =>
      rw [hv] at h
      simp only [if_true] at h
      obtain rfl : b = b2 := by simpa using h
      exact ⟨hv, rfl, rfl, rfl, Nat.le_refl _, fun _ => rfl,
        fun hlt => absurd hlt (by omega)⟩
  | succ n ih =>
    intro b b2 h
    rw [mineAux] at h
    cases hv : verifyHash b d with
    | true =>
      rw [hv] at h
      simp only [if_true] at h
      obtain rfl : b = b2 := by simpa using h
      exact ⟨hv, rfl, rfl, rfl, Nat.le_refl _, fun _ => rfl,
        fun hlt => absurd hlt (by omega)⟩
    | false =>
      rw [hv] at h
      simp only [Bool.false_eq_true, if_false] at h
      have S := ih _ b2 h
      have hTime : b2.time = b.time := S.2.1
      have hTx : b2.transaction = b.transaction := S.2.2.1
      have hPrev : b2.prev_block_hash = b.prev_block_hash := S.2.2.2.1
      have hGe : b.nonce + 1 ≤ b2.nonce := S.2.2.2.2.1
      refine ⟨S.1, hTime, hTx, hPrev, by omega, fun he => absurd he (by omega),
        fun _ => ⟨rfl, ?_, ?_⟩⟩
      · rcases Nat.eq_or_lt_of_le hGe with heq | hlt2
        · have hb2 : b2 = { b with
              nonce := b.nonce + 1
              hash := calculateHash m { b with nonce := b.nonce + 1 } } :=
            S.2.2.2.2.2.1 heq.symm
          rw [hb2]
        · have hh : b2.hash = calculateHash m { b with nonce := b2.nonce } :=
            (S.2.2.2.2.2.2 hlt2).2.1
          exact hh
      · intro k hk1 hk2
        rcases Nat.lt_or_ge (b.nonce + 1) k with hk3 | hk3
        · rcases Nat.eq_or_lt_of_le hGe with heq | hlt2
          · exact absurd hk2 (by omega)
          · have hmin2 : hasPfx d (calculateHash m { b with nonce := k }) = false :=
              (S.2.2.2.2.2.2 hlt2).2.2 k hk3 hk2
            exact hmin2
        · have hkeq : k = b.nonce + 1 := by omega
          subst hkeq
          rcases Nat.eq_or_lt_of_le hGe with heq | hlt2
          · exact absurd hk2 (by omega)
          · have hvN : hasPfx d
                (calculateHash m { b with nonce := b.nonce + 1 }) = false :=
              (S.2.2.2.2.2.2 hlt2).1
            exact hvN

/-- C3 counterexample: the sealed nonce is not the smallest
non-negative solution.  Under a model whose hash is constantly
`"00"`, the hash at nonce 0 already has the difficulty-2 prefix, yet
`Block::new` seals at nonce 1, because the loop increments the nonce
before computing any hash and the initial empty-string hash fails the
check. -/
theorem c3_mining_counterexample :
    blockNew toyModel 3 0 tx0 "0" = some bMined ∧ bMined.nonce = 1 ∧
      hasPfx 2 (calculateHash toyModel { bMined with nonce := 0 }) = true :=
  ⟨by decide, rfl, by decide⟩

/-- C3 (amended): a block sealed by `Block::new` (which always mines
at the fixed difficulty 2) has a hash with at least two leading zero
characters, carries the given time, transaction and previous hash,
and its nonce is the smallest **positive** integer whose computed
hash meets the difficulty — nonce 0 is never attempted, since the
loop increments the nonce before hashing and the initial hash is the
empty string, which fails every positive difficulty. -/
theorem c3_mining_amended (m : CryptoModel) (fuel time : Nat) (tx : Transaction)
    (prev : String) (b2 : Block) (h : blockNew m fuel time tx prev = some b2) :
    verifyHash b2 2 = true ∧
      b2.time = time ∧ b2.transaction = tx ∧ b2.prev_block_hash = prev ∧
      1 ≤ b2.nonce ∧
      b2.hash = calculateHash m b2 ∧
      ∀ k, 1 ≤ k → k < b2.nonce →
        hasPfx 2 (calculateHash m { b2 with nonce := k }) = false := by
  rw [blockNew] at h
  have S := mineAux_sound m 2 fuel _ b2 h
  have hTime : b2.time = time := S.2.1
  have hTx : b2.transaction = tx := S.2.2.1
  have hPrev : b2.prev_block_hash = prev := S.2.2.2.1
  have hPos : 1 ≤ b2.nonce := by
    rcases Nat.eq_zero_or_pos b2.nonce with h0 | h1
    · have hb2 := S.2.2.2.2.2.1 h0
      have hfalse : verifyHash b2 2 = false := by
        rw [hb2]
        rfl
      refine absurd S.1 ?_
      rw [hfalse]
      simp
    · exact h1
  have hlt : (0 : Nat) < b2.nonce := hPos
  obtain ⟨-, hhash, hmin⟩ := S.2.2.2.2.2.2 hlt
  refine ⟨S.1, hTime, hTx, hPrev, hPos, ?_, ?_⟩
  · rw [hhash]
    exact calculateHash_ext m hTime.symm hTx.symm hPrev.symm rfl
  · intro k hk1 hk2
    have hm := hmin k hk1 hk2
    have hext : calculateHash m { b2 with nonce := k } =
        calculateHash m
          { time := time, transaction := tx, prev_block_hash := prev
            nonce := k, hash := "" } :=
      calculateHash_ext m hTime hTx hPrev rfl
    rw [hext]
    exact hm

/-- C3 witness: the amended mining statement applied to the concrete
sealed block `bMined` under the toy model. -/
theorem c3_mining_witness :
    verifyHash bMined 2 = true ∧ 1 ≤ bMined.nonce ∧
      bMined.hash = calculateHash toyModel bMined := by
  have h := c3_mining_amended toyModel 3 0 tx0 "0" bMined (by decide)
  exact ⟨h.1, h.2.2.2.2.1, h.2.2.2.2.2.1⟩

theorem getLast?_eq_getD (l : List Block) (h : l ≠ []) :
    l.getLast? = some (l.getD (l.length - 1) defaultBlock) := by
  rw [List.getLast?_eq_getElem?, List.getD_eq_getElem?_getD]
  cases hx : l[l.length - 1]? with
  | none =>
    exfalso
    rw [List.getElem?_eq_none_iff] at hx
    cases l with
    | nil => exact h rfl
    | cons a as => simp at hx
  | some b => simp

theorem addBlock_wellLinked (m : CryptoModel) (fuel time : Nat)
    (bc bc2 : Blockchain) (tx : Transaction) (hw : WellLinked bc.chain)
    (h : addBlock m fuel time bc tx = some bc2) : WellLinked bc2.chain := by
  rw [addBlock] at h
  split at h
  case h_2 => exact absurd h (by simp)
  case h_1 nb heq =>
    obtain rfl : ({ chain := bc.chain ++ [nb] } : Blockchain) = bc2 := by
      simpa using h
    have hprev : nb.prev_block_hash =
        (match bc.chain.getLast? with
          | some b => b.hash
          | none => "0") := by
      rw [blockNew] at heq
      exact (mineAux_sound m 2 fuel _ nb heq).2.2.2.1
    intro i hi
    have hi2 : i < bc.chain.length + 1 := by simpa using hi
    rcases Nat.lt_or_ge i bc.chain.length with hlt | hge
    · rw [List.getD_append _ _ _ _ hlt]
      by_cases h0 : i = 0
      · subst h0
        rw [if_pos rfl]
        have := hw 0 hlt
        simpa using this
      · rw [if_neg h0]
        rw [List.getD_append _ _ _ _ (by omega : i - 1 < bc.chain.length)]
        have := hw i hlt
        rw [if_neg h0] at this
        exact this
    · have hieq : i = bc.chain.length := by omega
      subst hieq
      have hnb : (bc.chain ++ [nb]).getD bc.chain.length defaultBlock = nb := by
        rw [List.getD_eq_getElem?_getD, List.getElem?_concat_length]
        rfl
      rw [hnb]
      cases hlast : bc.chain.getLast? with
      | none =>
        rw [List.getLast?_eq_none_iff] at hlast
        rw [hlast] at hprev ⊢
        simpa using hprev
      | some lastB =>
        have hne : bc.chain ≠ [] := by
          intro hnil
          rw [hnil] at hlast
          simp at hlast
        have hlen0 : bc.chain.length ≠ 0 := by
          intro h0
          exact hne (List.length_eq_zero.mp h0)
        rw [if_neg hlen0]
        rw [List.getD_append _ _ _ _
          (by omega : bc.chain.length - 1 < bc.chain.length)]
        have hg := getLast?_eq_getD bc.chain hne
        rw [hlast] at hg
        have hlb : lastB = bc.chain.getD (bc.chain.length - 1) defaultBlock := by
          simpa using hg
        rw [hprev, hlast, hlb]

theorem runOps_wellLinked (m : CryptoModel) :
    ∀ (ops : List (Transaction × Nat × Nat)) (bc : Blockchain),
      WellLinked bc.chain → WellLinked (runOps m bc ops).chain
  | [], _, hw => hw
  | (tx, time, fuel) :: rest, bc, hw => by
    rw [runOps]
    apply runOps_wellLinked m rest
    cases hab : addBlock m fuel time bc tx with
    | none => exact hw
    | some bc2 => exact addBlock_wellLinked m fuel time bc bc2 tx hw hab

/-- C5: every chain produced from the empty chain by a sequence of
`add_block` calls satisfies the linkage invariant: block 0 has
`prev_block_hash = "0"` and every later block's `prev_block_hash`
equals its predecessor's `hash`. -/
theorem c5_chain_linkage (m : CryptoModel) (ops : List (Transaction × Nat × Nat)) :
    ∀ i, i < (runOps m { chain := [] } ops).chain.length →
      ((runOps m { chain := [] } ops).chain.getD i defaultBlock).prev_block_hash =
        (if i = 0 then "0"
          else ((runOps m { chain := [] } ops).chain.getD (i - 1)
            defaultBlock).hash) :=
  runOps_wellLinked m ops { chain := [] } (fun _ hi => absurd hi (by simp))

/-- C5 witness: a concrete two-call run under the toy model yields a
two-block chain whose first block points at `"0"` and whose second
points at the first block's hash. -/
theorem c5_chain_linkage_witness :
    ((runOps toyModel { chain := [] } opsW).chain.getD 0
        defaultBlock).prev_block_hash = "0" ∧
      ((runOps toyModel { chain := [] } opsW).chain.getD 1
          defaultBlock).prev_block_hash =
        ((runOps toyModel { chain := [] } opsW).chain.getD 0 defaultBlock).hash := by
  have h0 := c5_chain_linkage toyModel opsW 0 (by decide)
  have h1 := c5_chain_linkage toyModel opsW 1 (by decide)
  rw [if_pos rfl] at h0
  rw [if_neg (by decide)] at h1
  exact ⟨h0, h1⟩

theorem getCount_bump (mp : List (Blockchain × Nat)) (c c2 : Blockchain) :
    getCount (bump mp c) c2 = getCount mp c2 + (if c2 = c then 1 else 0) := by
  induction mp with
  | nil =>
    by_cases h : c2 = c <;> simp [bump, getCount, h]
  | cons e rest ih =>
    obtain ⟨a, n⟩ := e
    by_cases h1 : c = a <;> by_cases h2 : c2 = a
    · have h3 : c2 = c := h2.trans h1.symm
      subst h3
      simp [bump, getCount, h1, h2]
    · have h3 : ¬ c2 = c := fun hh => h2 (hh.trans h1)
      simp [bump, getCount, h1, h2, h3]
    · have h3 : ¬ c2 = c := fun hh => h1 (hh.symm.trans h2)
      have h4 : ¬ a = c := fun hh => h1 hh.symm
      simp [bump, getCount, h1, h2, h3, h4]
    · simp [bump, getCount, h1, h2, ih]

theorem bump_ne_nil (mp : List (Blockchain × Nat)) (c : Blockchain) :
    bump mp c ≠ [] := by
  cases mp with
  | nil => simp [bump]
  | cons e rest =>
    obtain ⟨a, n⟩ := e
    by_cases h : c = a <;> simp [bump, h]

theorem bump_counts_pos (mp : List (Blockchain × Nat)) (c : Blockchain)
    (h : ∀ e ∈ mp, 1 ≤ e.2) : ∀ e ∈ bump mp c, 1 ≤ e.2 := by
  induction mp with
  | nil =>
    intro e he
    simp [bump] at he
    simp [he]
  | cons a rest ih =>
    obtain ⟨a1, n⟩ := a
    by_cases hc : c = a1
    · intro e he
      rw [bump, if_pos hc] at he
      rcases List.mem_cons.mp he with rfl | hmem
      · simp
      · exact h e (by simp [hmem])
    · intro e he
      rw [bump, if_neg hc] at he
      rcases List.mem_cons.mp he with rfl | hmem
      · exact h (a1, n) (by simp)
      · exact ih (fun e2 he2 => h e2 (by simp [he2])) e hmem

theorem bump_keys (mp : List (Blockchain × Nat)) (c : Blockchain) :
    (bump mp c).map Prod.fst = mp.map Prod.fst ∨
      (bump mp c).map Prod.fst = mp.map Prod.fst ++ [c] := by
  induction mp with
  | nil => right; simp [bump]
  | cons a rest ih =>
    obtain ⟨a1, n⟩ := a
    by_cases hc : c = a1
    · left
      rw [bump, if_pos hc]
      simp
    · rw [bump, if_neg hc]
      rcases ih with h | h
      · left
        simp [h]
      · right
        simp [h]

theorem bump_keys_nodup (mp : List (Blockchain × Nat)) (c : Blockchain)
    (hnd : (mp.map Prod.fst).Nodup) : ((bump mp c).map Prod.fst).Nodup := by
  induction mp with
  | nil => simp [bump]
  | cons a rest ih =>
    obtain ⟨a1, n⟩ := a
    by_cases hc : c = a1
    · rw [bump, if_pos hc]
      simpa using hnd
    · rw [bump, if_neg hc]
      simp only [List.map_cons, List.nodup_cons] at hnd ⊢
      refine ⟨?_, ih hnd.2⟩
      intro hmem
      rcases bump_keys rest c with h | h
      · rw [h] at hmem
        exact hnd.1 hmem
      · rw [h] at hmem
        rcases List.mem_append.mp hmem with h2 | h2
        · exact hnd.1 h2
        · simp at h2
          exact hc h2.symm

theorem getCount_entry (mp : List (Blockchain × Nat)) (c : Blockchain) (n : Nat)
    (hnd : (mp.map Prod.fst).Nodup) (hmem : (c, n) ∈ mp) : getCount mp c = n := by
  induction mp with
  | nil => simp at hmem
  | cons e rest ih =>
    obtain ⟨a, k⟩ := e
    simp only [List.map_cons, List.nodup_cons] at hnd
    rcases List.mem_cons.mp hmem with heq | hmem2
    · obtain ⟨rfl, rfl⟩ := Prod.mk.injEq .. ▸ heq
      simp [getCount]
    · have hca : ¬ c = a := by
        intro hca
        subst hca
        exact hnd.1 (List.mem_map_of_mem Prod.fst hmem2)
      rw [getCount, if_neg hca]
      exact ih hnd.2 hmem2

theorem getCount_mem (mp : List (Blockchain × Nat)) (c : Blockchain) :
    getCount mp c = 0 ∨ (c, getCount mp c) ∈ mp := by
  induction mp with
  | nil => left; rfl
  | cons e rest ih =>
    obtain ⟨a, k⟩ := e
    by_cases hca : c = a
    · subst hca
      right
      rw [getCount, if_pos rfl]
      simp
    · rw [getCount, if_neg hca]
      rcases ih with h | h
      · left; exact h
      · right; exact List.mem_cons_of_mem _ h

theorem pickMost_foldl (l : List (Blockchain × Nat)) :
    ∀ acc : Option Blockchain × Nat,
      (∀ e ∈ l, e.2 ≤ (l.foldl pickStep acc).2) ∧
      acc.2 ≤ (l.foldl pickStep acc).2 ∧
      (l.foldl pickStep acc = acc ∨
        ∃ e ∈ l, l.foldl pickStep acc = (some e.1, e.2)) := by
  induction l with
  | nil => intro acc; exact ⟨by simp, Nat.le_refl _, Or.inl rfl⟩
  | cons e l ih =>
    intro acc
    have hstep : e.2 ≤ (pickStep acc e).2 ∧ acc.2 ≤ (pickStep acc e).2 ∧
        (pickStep acc e = acc ∨ pickStep acc e = (some e.1, e.2)) := by
      rw [pickStep]
      split
      · exact ⟨Nat.le_refl _, by omega, Or.inr rfl⟩
      · exact ⟨by omega, Nat.le_refl _, Or.inl rfl⟩
    obtain ⟨ih1, ih2, ih3⟩ := ih (pickStep acc e)
    refine ⟨?_, Nat.le_trans hstep.2.1 ih2, ?_⟩
    · intro e2 he2
      rcases List.mem_cons.mp he2 with rfl | hmem
      · exact Nat.le_trans hstep.1 ih2
      · exact ih1 e2 hmem
    · rcases ih3 with h | ⟨e2, he2, h⟩
      · rcases hstep.2.2 with h2 | h2
        · left
          rw [List.foldl_cons, h, h2]
        · right
          exact ⟨e, by simp, by rw [List.foldl_cons, h, h2]⟩
      · right
        exact ⟨e2, by simp [he2], by rw [List.foldl_cons]; exact h⟩

theorem pickMost_spec (mp : List (Blockchain × Nat))
    (hpos : ∀ e ∈ mp, 1 ≤ e.2) (hne : mp ≠ [])
    (hnd : (mp.map Prod.fst).Nodup) :
    ∃ best, (pickMost mp).1 = some best ∧
      getCount mp best = (pickMost mp).2 ∧
      ∀ c, getCount mp c ≤ (pickMost mp).2 := by
  obtain ⟨h1, _, h3⟩ := pickMost_foldl mp (none, 0)
  have hmax : ∀ c, getCount mp c ≤ (pickMost mp).2 := by
    intro c
    rcases getCount_mem mp c with h | h
    · omega
    · exact h1 _ h
  rcases h3 with h | ⟨e, he, h⟩
  · exfalso
    obtain ⟨e0, he0⟩ := List.exists_mem_of_ne_nil mp hne
    have h2 := h1 e0 he0
    rw [h] at h2
    simp at h2
    have h4 := hpos e0 he0
    omega
  · have hp : pickMost mp = (some e.1, e.2) := h
    refine ⟨e.1, ?_, ?_, hmax⟩
    · rw [hp]
    · have hge : getCount mp e.1 = e.2 := getCount_entry mp e.1 e.2 hnd (by
        obtain ⟨a, b⟩ := e
        exact he)
      rw [hp, hge]

theorem syncLoop_getCount (env : PeerEnv) (selfAddr : Addr) :
    ∀ (todo ps : List Addr) (mp : List (Blockchain × Nat)) (c : Blockchain),
      getCount (syncLoop env selfAddr todo ps mp).2 c =
        getCount mp c +
          todo.countP (fun p =>
            decide (p ≠ selfAddr) && (env.peersResp p).isSome &&
              decide (env.chainResp p = some c)) := by
  intro todo
  induction todo with
  | nil => intro ps mp c; simp [syncLoop]
  | cons p rest ih =>
    intro ps mp c
    rw [List.countP_cons]
    by_cases hself : p = selfAddr
    · rw [syncLoop, if_pos hself, ih]
      simp [hself]
    · rw [syncLoop, if_neg hself]
      cases hpr : env.peersResp p with
      | none =>
        rw [ih]
        simp [hpr]
      | some resPeers =>
        cases hcr : env.chainResp p with
        | none =>
          rw [ih]
          simp [hpr, hcr, hself]
        | some bc =>
          rw [ih, getCount_bump]
          by_cases hc : c = bc
          · simp [hself, hpr, hcr, hc]
            try omega
          · have hc2 : ¬ bc = c := fun hh => hc hh.symm
            simp [hself, hpr, hcr, hc, hc2]
            try omega

theorem syncLoop_counts_pos (env : PeerEnv) (selfAddr : Addr) :
    ∀ (todo ps : List Addr) (mp : List (Blockchain × Nat)),
      (∀ e ∈ mp, 1 ≤ e.2) →
      ∀ e ∈ (syncLoop env selfAddr todo ps mp).2, 1 ≤ e.2 := by
  intro todo
  induction todo with
  | nil => intro ps mp h; simpa [syncLoop] using h
  | cons p rest ih =>
    intro ps mp h
    rw [syncLoop]
    by_cases hself : p = selfAddr
    · rw [if_pos hself]
      exact ih ps mp h
    · rw [if_neg hself]
      cases hpr : env.peersResp p with
      | none => exact ih ps mp h
      | some resPeers =>
        cases hcr : env.chainResp p with
        | none => exact ih _ mp h
        | some bc => exact ih _ _ (bump_counts_pos mp bc h)

theorem syncLoop_keys_nodup (env : PeerEnv) (selfAddr : Addr) :
    ∀ (todo ps : List Addr) (mp : List (Blockchain × Nat)),
      ((mp.map Prod.fst).Nodup) →
      (((syncLoop env selfAddr todo ps mp).2.map Prod.fst).Nodup) := by
  intro todo
  induction todo with
  | nil => intro ps mp h; simpa [syncLoop] using h
  | cons p rest ih =>
    intro ps mp h
    rw [syncLoop]
    by_cases hself : p = selfAddr
    · rw [if_pos hself]
      exact ih ps mp h
    · rw [if_neg hself]
      cases hpr : env.peersResp p with
      | none => exact ih ps mp h
      | some resPeers =>
        cases hcr : env.chainResp p with
        | none => exact ih _ mp h
        | some bc => exact ih _ _ (bump_keys_nodup mp bc h)

theorem mem_foldl_insertAddr (p : Addr) :
    ∀ (l ps : List Addr), p ∈ ps → p ∈ l.foldl insertAddr ps := by
  intro l
  induction l with
  | nil => intro ps h; simpa using h
  | cons a rest ih =>
    intro ps h
    rw [List.foldl_cons]
    refine ih (insertAddr ps a) ?_
    rw [insertAddr]
    split
    · exact h
    · exact List.mem_append_left _ h

theorem syncLoop_peers_mono (env : PeerEnv) (selfAddr : Addr) :
    ∀ (todo ps : List Addr) (mp : List (Blockchain × Nat)) (p : Addr),
      p ∈ ps → p ∈ (syncLoop env selfAddr todo ps mp).1 := by
  intro todo
  induction todo with
  | nil => intro ps mp p h; simpa [syncLoop] using h
  | cons q rest ih =>
    intro ps mp p h
    rw [syncLoop]
    by_cases hself : q = selfAddr
    · rw [if_pos hself]
      exact ih ps mp p h
    · rw [if_neg hself]
      cases hpr : env.peersResp q with
      | none => exact ih ps mp p h
      | some resPeers =>
        cases hcr : env.chainResp q with
        | none => exact ih _ mp p (mem_foldl_insertAddr p resPeers ps h)
        | some bc => exact ih _ _ p (mem_foldl_insertAddr p resPeers ps h)

theorem syncUsage_getCount (env : PeerEnv) (st : Ledger) (c : Blockchain) :
    getCount (syncUsage env st) c = votes env st c := by
  rw [syncUsage, votes, getCount_bump,
    syncLoop_getCount env st.addr st.peers st.peers [] c]
  rw [getCount]
  omega

theorem syncUsage_pick (env : PeerEnv) (st : Ledger) :
    ∃ best, (pickMost (syncUsage env st)).1 = some best ∧
      getCount (syncUsage env st) best = (pickMost (syncUsage env st)).2 ∧
      ∀ c, getCount (syncUsage env st) c ≤ (pickMost (syncUsage env st)).2 := by
  refine pickMost_spec _ ?_ ?_ ?_
  · exact bump_counts_pos _ _
      (syncLoop_counts_pos env st.addr st.peers st.peers [] (by simp))
  · exact bump_ne_nil _ _
  · exact bump_keys_nodup _ _
      (syncLoop_keys_nodup env st.addr st.peers st.peers [] (by simp))

/-- C2: reconciliation is majority-copy.  In every `sync` run the
adopted chain's tally (identical successful fetches plus the one
self-vote) is maximal over all chains; and in the concrete scenario
where the local chain has length 2 and peers B and C both report its
length-1 prefix, the node adopts the strictly shorter prefix chain (2
votes beat the self-vote of 1) — majority-copy, not longest-chain,
with no re-validation of the adopted chain. -/
theorem c2_majority_copy_consensus :
    (∀ (env : PeerEnv) (st : Ledger) (c : Blockchain),
      votes env st c ≤ votes env st ((sync env st).chain)) ∧
      (sync envScenario stScenario).chain = { chain := [blkA] } := by
  constructor
  · intro env st c
    obtain ⟨best, hb1, hb2, hb3⟩ := syncUsage_pick env st
    have hchain : (sync env st).chain = best := by
      simp [sync, hb1]
    rw [hchain]
    rw [← syncUsage_getCount env st c, ← syncUsage_getCount env st best, hb2]
    exact hb3 c
  · decide

/-- C9 counterexample: a failed **announce** does not cost a peer its
vote.  Peer B's announce POST fails, yet B's successfully fetched
chain still receives one vote (not zero) and is in fact adopted over
the node's own distinct chain. -/
theorem c9_announce_failure_counterexample :
    envAnnounceFail.announceOk "B" = false ∧
      ("B" : Addr) ∈ stAnnounceFail.peers ∧
      votes envAnnounceFail stAnnounceFail { chain := [blkA] } = 1 ∧
      (sync envAnnounceFail stAnnounceFail).chain = { chain := [blkA] } ∧
      stAnnounceFail.chain ≠ { chain := [blkA] } :=
  ⟨rfl, by decide, by decide, by decide, by decide⟩

/-- C9 (amended): during every `sync` run, a peer whose peer-list
fetch or chain fetch fails, times out or is unparseable contributes
zero votes for that cycle — the tally for any chain counts exactly
the peers (other than self) whose peer-list fetch succeeded and whose
chain fetch returned that chain, plus the one self-vote, so failed
peers contribute nothing; the announce result is ignored entirely, so
an announce failure alone does **not** exclude a peer's chain.  No
peer is ever removed from the peer set by reconciliation. -/
theorem c9_amended_failure_isolation (env : PeerEnv) (st : Ledger) :
    (∀ p, p ∈ st.peers → p ∈ (sync env st).peers) ∧
      (∀ c, getCount (syncUsage env st) c = votes env st c) := by
  constructor
  · intro p hp
    have hpeers : (sync env st).peers = syncPeers env st := by
      cases h : (pickMost (syncUsage env st)).1 <;> simp [sync, h]
    rw [hpeers, syncPeers]
    exact syncLoop_peers_mono env st.addr st.peers st.peers [] p hp
  · intro c
    exact syncUsage_getCount env st c

/-- C9 witness: the amended statement applied to the concrete
announce-failure scenario: peer B stays in the peer set, and the
usage-map count of B's chain equals its vote count. -/
theorem c9_amended_witness :
    ("B" : Addr) ∈ (sync envAnnounceFail stAnnounceFail).peers ∧
      getCount (syncUsage envAnnounceFail stAnnounceFail) { chain := [blkA] } =
        votes envAnnounceFail stAnnounceFail { chain := [blkA] } :=
  ⟨(c9_amended_failure_isolation envAnnounceFail stAnnounceFail).1 "B" (by decide),
    (c9_amended_failure_isolation envAnnounceFail stAnnounceFail).2
      { chain := [blkA] }⟩

/-- C8: under the idealised contract of the ECDSA/SHA-256
collaborators — a signature round-trips and verifies against the
signer's derived public key; no other signature string verifies for
that key and digest; a genuine signature does not verify against a
different digest; and the two digests differ (SHA-256
collision-freedom on the two signed messages, which differ in their
big-endian amount bytes) — the transaction built by
`Transaction::new` verifies to `Ok(true)`, and corrupting the
signature string to any other value (in particular any single-byte
flip) or the amount to any other value (in particular any single-byte
flip of its encoding) makes verification no longer return true. -/
theorem c8_sign_verify_tamper (m : CryptoModel) (fromSk : SecretKey)
    (toKey : PublicKey) (a a2 : Nat) (t : Transaction)
    (hnew : transactionNew m toKey fromSk a = Except.ok t)
    (hround : ∃ sg, m.parseSig (m.signStr fromSk
        (messageBytes m toKey (m.pubOfSecret fromSk) a)) = some sg ∧
      m.ecdsaVerify (messageBytes m toKey (m.pubOfSecret fromSk) a) sg
        (m.pubOfSecret fromSk) = true)
    (hsigTamper : ∀ s2 sg2, s2 ≠ m.signStr fromSk
        (messageBytes m toKey (m.pubOfSecret fromSk) a) →
      m.parseSig s2 = some sg2 →
      m.ecdsaVerify (messageBytes m toKey (m.pubOfSecret fromSk) a) sg2
        (m.pubOfSecret fromSk) = false)
    (hmsgTamper : ∀ sg, m.parseSig (m.signStr fromSk
        (messageBytes m toKey (m.pubOfSecret fromSk) a)) = some sg →
      m.ecdsaVerify (messageBytes m toKey (m.pubOfSecret fromSk) a2) sg
        (m.pubOfSecret fromSk) = false)
    (_hdigest : messageBytes m toKey (m.pubOfSecret fromSk) a ≠
      messageBytes m toKey (m.pubOfSecret fromSk) a2) :
    transactionVerify m t = Except.ok true ∧
      (∀ s2, s2 ≠ t.signature →
        transactionVerify m { t with signature := s2 } ≠ Except.ok true) ∧
      transactionVerify m { t with amount := a2 } ≠ Except.ok true := by
  simp only [transactionNew, messageBytes_length, if_pos] at hnew
  rw [Except.ok.injEq] at hnew
  subst hnew
  obtain ⟨sg, hp, hv⟩ := hround
  refine ⟨?_, ?_, ?_⟩
  · simp [transactionVerify, hp, messageBytes_length, hv]
  · intro s2 hs2 hcon
    simp only [transactionVerify] at hcon
    cases hps : m.parseSig s2 with
    | none => simp [hps] at hcon
    | some sg2 =>
      have hv2 := hsigTamper s2 sg2 hs2 hps
      simp [hps, messageBytes_length, hv2] at hcon
  · intro hcon
    simp only [transactionVerify] at hcon
    have hv3 := hmsgTamper sg hp
    simp [hp, messageBytes_length, hv3] at hcon

/-- C8 witness: the round-trip and tamper statement applied under the
toy model to a concrete key, recipient and amount, with a concrete
corrupted signature string and a concrete corrupted amount. -/
theorem c8_sign_verify_witness :
    transactionVerify toyModel tW = Except.ok true ∧
      transactionVerify toyModel { tW with signature := "x" } ≠ Except.ok true ∧
      transactionVerify toyModel { tW with amount := 1 } ≠ Except.ok true := by
  have hsig : ∀ s2 sg2, s2 ≠ toyModel.signStr { s := "k" }
      (messageBytes toyModel { s := "B" } (toyModel.pubOfSecret { s := "k" }) 0) →
      toyModel.parseSig s2 = some sg2 →
      toyModel.ecdsaVerify (messageBytes toyModel { s := "B" }
        (toyModel.pubOfSecret { s := "k" }) 0) sg2
        (toyModel.pubOfSecret { s := "k" }) = false := by
    intro s2 sg2 hne hp
    by_cases h0 : s2 = ""
    · rw [show toyModel.parseSig s2 = if s2 = "" then none
          else some { s := s2 } from rfl, if_pos h0] at hp
      exact absurd hp (by simp)
    · rw [show toyModel.parseSig s2 = if s2 = "" then none
          else some { s := s2 } from rfl, if_neg h0] at hp
      injection hp with hp2
      subst hp2
      exact beq_eq_false_iff_ne.mpr hne
  have hmsg : ∀ sg, toyModel.parseSig (toyModel.signStr { s := "k" }
      (messageBytes toyModel { s := "B" } (toyModel.pubOfSecret { s := "k" }) 0)) =
        some sg →
      toyModel.ecdsaVerify (messageBytes toyModel { s := "B" }
        (toyModel.pubOfSecret { s := "k" }) 1) sg
        (toyModel.pubOfSecret { s := "k" }) = false := by
    intro sg hp
    rw [show toyModel.parseSig (toyModel.signStr { s := "k" }
        (messageBytes toyModel { s := "B" } (toyModel.pubOfSecret { s := "k" }) 0)) =
      some { s := tW.signature } from by decide] at hp
    injection hp with hp2
    subst hp2
    decide
  have h := c8_sign_verify_tamper toyModel { s := "k" } { s := "B" } 0 1 tW
    rfl
    ⟨{ s := tW.signature }, by decide, by decide⟩
    hsig hmsg (by decide)
  exact ⟨h.1, h.2.1 "x" (by decide), h.2.2⟩

/-- C10: `update_blockchain` replaces the chain with exactly the given
value for every chain value, with no validation, and leaves the
address, the peer set and the pending-transaction buffer unchanged. -/
theorem c10_update_blockchain_frame (st : Ledger) (bc : Blockchain) :
    (updateBlockchain st bc).chain = bc ∧
      (updateBlockchain st bc).addr = st.addr ∧
      (updateBlockchain st bc).peers = st.peers ∧
      (updateBlockchain st bc).pending_transactions = st.pending_transactions :=
  ⟨rfl, rfl, rfl, rfl⟩

end Silocoin
